import Mathlib

/-! Formal model of the Mondash ledger-aggregation and duplicate-transfer
detection core (`mondash/app.py`, `mondash/utils.py`): the streaming
matcher and monthly aggregator of the `base` handler, the per-user cache
refresh logic, the API client's cursor filter on transactions, currency
formatting and HTTP error mapping. -/

namespace Mondash

/-- TransactionItem: the fields of an upstream transaction object that the
dashboard code reads.  `merchant` is `some name` when the (expanded)
merchant object is present — a truthy dict in `if item["merchant"]:` —
and carries that object's `name`; `counterparty` likewise (Monzo sends an
empty, falsy dict when there is no counterparty); `declineReason` models
`item.get("decline_reason")`, `none` when the key is absent. -/
structure Item where
  id : String
  created : String
  amount : Int
  merchant : Option String
  counterparty : Option String
  category : String
  declineReason : Option String
  isLoad : Bool
deriving DecidableEq, Repr

/-- Python truthiness of an optional string value: `None` and `""` are
falsy, every other string is truthy. -/
def truthyStr : Option String → Bool
  | none => false
  | some s => !(s == "")

/-- Python string comparison `<=` is code-point lexicographic; this is the
same order on the underlying character lists, written structurally so that
it evaluates by kernel reduction. -/
def charsLe : List Char → List Char → Bool
  | [], _ => true
  | _ :: _, [] => false
  | a :: as, b :: bs => if a = b then charsLe as bs else decide (a < b)

/-- Sort key relation used by `items.sort(key=lambda item: item["created"])`:
compare the `created` timestamp strings. -/
def createdLe (i j : Item) : Prop := charsLe i.created.data j.created.data = true

instance : DecidableRel createdLe := fun _ _ => instDecidableEqBool _ _

/-- Model of the in-place `items.sort(key=lambda item: item["created"])`:
Python's sort is a stable sort by the key, which `List.insertionSort` with
a total preorder computes. -/
def sortByCreated (l : List Item) : List Item := l.insertionSort createdLe

/-- Month key `date_format(item["created"], "%Y-%m")`: both timestamp
layouts accepted by `date_format` begin `YYYY-MM-DD…`, so formatting the
parsed date with `"%Y-%m"` returns the first seven characters. -/
def dateFormatYM (ts : String) : String := String.mk (ts.data.take 7)

/-- Model of `defaultdict(int)` update `d[k] += a`: bump the entry for `k`,
creating it from the default `0` when absent. -/
def bump (k : String) (a : Int) : List (String × Int) → List (String × Int)
  | [] => [(k, a)]
  | (k', v) :: rest => if k' = k then (k', v + a) :: rest else (k', v) :: bump k a rest

/-- Model of the nested `defaultdict(lambda: defaultdict(int))` update
`d[k1][k2] += a`. -/
def bump2 (k1 k2 : String) (a : Int) :
    List (String × List (String × Int)) → List (String × List (String × Int))
  | [] => [(k1, [(k2, a)])]
  | (k', m) :: rest =>
      if k' = k1 then (k', bump k2 a m) :: rest else (k', m) :: bump2 k1 k2 a rest

/-- Key of the matcher's pending dict `matches`: the pair
`(merchant, amount)` where `merchant` is the resolved name (possibly
`None`). -/
abbrev MKey := Option String × Int

/-- Dict lookup `k in matches` / `matches[k]` on the pending map. -/
def lookupKV (k : MKey) : List (MKey × String) → Option String
  | [] => none
  | (k', v) :: rest => if k' = k then some v else lookupKV k rest

/-- Dict assignment `matches[k] = v`: overwrite the entry if `k` is already
present (a Python dict holds one value per key), else append it. -/
def insertKV (k : MKey) (v : String) : List (MKey × String) → List (MKey × String)
  | [] => [(k, v)]
  | (k', v') :: rest =>
      if k' = k then (k, v) :: rest else (k', v') :: insertKV k v rest

/-- Dict removal `matches.pop(k)` (the returned value is read off with
`lookupKV` first). -/
def eraseKV (k : MKey) : List (MKey × String) → List (MKey × String)
  | [] => []
  | (k', v') :: rest => if k' = k then rest else (k', v') :: eraseKV k rest

/-- Mutable state of the `for item in items:` loop in `base`. -/
structure LoopState where
  inbounds : List (String × Int)
  outbounds : List (String × Int)
  categories : List (String × List (String × Int))
  merchants : List (String × List (String × Int))
  matchesDict : List (MKey × String)
  dupes : Finset String
deriving DecidableEq

/-- Initial loop state: empty defaultdicts, empty `matches` dict, empty
`dupes` set. -/
def initState : LoopState := ⟨[], [], [], [], [], ∅⟩

/-- One iteration of the aggregation/matching loop in `base`
(`app.py` lines 121–143), in source order: skip zero-amount or declined
items; resolve the merchant name from the merchant else the counterparty;
add the amount to the month's inbound or outbound total; pair the item
against the pending map (popping the complement and flagging both ids) or
record it as pending; rewrite a falsy name to `"Top-up"` for loads; bump
the category and merchant buckets. -/
def processItem (st : LoopState) (i : Item) : LoopState :=
  if i.amount = 0 ∨ truthyStr i.declineReason = true then st
  else
    let month := dateFormatYM i.created
    let merchant : Option String :=
      match i.merchant with
      | some n => some n
      | none => i.counterparty
    let amount := i.amount
    let inbounds := if 0 < amount then bump month amount st.inbounds else st.inbounds
    let outbounds := if 0 < amount then st.outbounds else bump month amount st.outbounds
    let dm : Finset String × List (MKey × String) :=
      match lookupKV (merchant, -amount) st.matchesDict with
      | some pid => (insert pid (insert i.id st.dupes), eraseKV (merchant, -amount) st.matchesDict)
      | none => (st.dupes, insertKV (merchant, amount) i.id st.matchesDict)
    let merchant2 := if truthyStr merchant = false ∧ i.isLoad then some "Top-up" else merchant
    let categories := bump2 month i.category amount st.categories
    let merchants := bump2 month (merchant2.getD "") amount st.merchants
    ⟨inbounds, outbounds, categories, merchants, dm.2, dm.1⟩

/-- Whole aggregation/matching pass of `base` over the chronological item
list. -/
def processItems (items : List Item) : LoopState := items.foldl processItem initState

/-- Concrete eligible inbound item with neither a merchant nor a
counterparty name. -/
def c1Plus : Item := ⟨"c1a", "2023-01-01T00:00:00Z", 500, none, none, "general", none, false⟩

/-- Concrete eligible no-name item with the opposite amount. -/
def c1Minus : Item := ⟨"c1b", "2023-01-02T00:00:00Z", -500, none, none, "general", none, false⟩

/-- C1, counterexample: `c1Plus` has nonzero amount, no decline reason and
neither a merchant nor a counterparty name, yet after the pass over
`[c1Plus, c1Minus]` both identifiers are in the duplicate set — the code
keys no-name items under `(None, amount)` and lets them match each
other. -/
theorem c1_counterexample :
    c1Plus.amount ≠ 0 ∧ truthyStr c1Plus.declineReason = false
      ∧ c1Plus.merchant = none ∧ c1Plus.counterparty = none
      ∧ c1Plus.id ∈ (processItems [c1Plus, c1Minus]).dupes
      ∧ c1Minus.id ∈ (processItems [c1Plus, c1Minus]).dupes := by decide

/-- C1 (amended): an eligible item with neither a merchant nor a
counterparty name is matchable under the `None` name bucket: two
consecutive no-name items with opposite nonzero amounts are both flagged
as duplicates. -/
theorem c1_amended (i1 i2 : Item) (a : Int) (ha : a ≠ 0)
    (ha1 : i1.amount = a) (ha2 : i2.amount = -a)
    (hm1 : i1.merchant = none) (hc1 : i1.counterparty = none)
    (hd1 : truthyStr i1.declineReason = false)
    (hm2 : i2.merchant = none) (hc2 : i2.counterparty = none)
    (hd2 : truthyStr i2.declineReason = false) :
    (processItems [i1, i2]).dupes = {i1.id, i2.id} := by
  have hne : -a ≠ 0 := neg_ne_zero.mpr ha
  simp [processItems, processItem, ha1, ha2, hm1, hc1, hd1, hm2, hc2, hd2, ha, hne,
    initState, lookupKV, insertKV, eraseKV, neg_neg]

/-- C1 amended, witness at the concrete items `c1Plus`, `c1Minus`. -/
theorem c1_witness :
    ((500 : Int) ≠ 0 ∧ c1Plus.amount = 500 ∧ c1Minus.amount = -500
      ∧ c1Plus.merchant = none ∧ c1Plus.counterparty = none
      ∧ truthyStr c1Plus.declineReason = false
      ∧ c1Minus.merchant = none ∧ c1Minus.counterparty = none
      ∧ truthyStr c1Minus.declineReason = false)
      ∧ (processItems [c1Plus, c1Minus]).dupes = {c1Plus.id, c1Minus.id} :=
  ⟨by decide,
   c1_amended c1Plus c1Minus 500 (by decide) (by decide) (by decide) (by decide)
     (by decide) (by decide) (by decide) (by decide) (by decide)⟩

/-- First pending item for the order-sensitivity scenario. -/
def c2A : Item := ⟨"c2a", "2023-01-01T00:00:00Z", 500, some "M", none, "general", none, false⟩

/-- Second pending item, same name and amount as `c2A`. -/
def c2B : Item := ⟨"c2b", "2023-01-02T00:00:00Z", 500, some "M", none, "general", none, false⟩

/-- Arriving opposite-amount item with the same name. -/
def c2C : Item := ⟨"c2c", "2023-01-03T00:00:00Z", -500, some "M", none, "general", none, false⟩

/-- C2, counterexample: with items `(M, +500)` `c2a` then `c2b` inserted
before the opposite item `c2c` arrives, the matcher pairs `c2c` with the
*latest* insertion `c2b` — `matches[(M, 500)] = "c2b"` overwrote `"c2a"` —
so the duplicate set is `{"c2b", "c2c"}` and the earliest-inserted `"c2a"`
is not flagged, contrary to the claim. -/
theorem c2_counterexample :
    (processItems [c2A, c2B, c2C]).dupes = {"c2b", "c2c"}
      ∧ "c2a" ∉ (processItems [c2A, c2B, c2C]).dupes := by decide

/-- C2 (amended): the pending dict holds at most one identifier per
`(name, amount)` key — a later eligible item with the same name and signed
amount overwrites the earlier pending entry — so the arriving
opposite-amount item is paired with the most recently inserted pending
item, exactly one pair forms, and the overwritten earlier item is never
flagged. -/
theorem c2_amended (i1 i2 i3 : Item) (n : String) (a : Int) (ha : a ≠ 0)
    (hm1 : i1.merchant = some n) (hm2 : i2.merchant = some n) (hm3 : i3.merchant = some n)
    (ha1 : i1.amount = a) (ha2 : i2.amount = a) (ha3 : i3.amount = -a)
    (hd1 : truthyStr i1.declineReason = false)
    (hd2 : truthyStr i2.declineReason = false)
    (hd3 : truthyStr i3.declineReason = false)
    (h12 : i1.id ≠ i2.id) (h13 : i1.id ≠ i3.id) :
    (processItems [i1, i2, i3]).dupes = {i2.id, i3.id}
      ∧ i1.id ∉ (processItems [i1, i2, i3]).dupes := by
  have hne : -a ≠ 0 := neg_ne_zero.mpr ha
  have hne2 : ¬(a = -a) := by omega
  have hd : (processItems [i1, i2, i3]).dupes = {i2.id, i3.id} := by
    simp [processItems, processItem, ha, hne, hne2, hm1, hm2, hm3, ha1, ha2, ha3,
      hd1, hd2, hd3, initState, lookupKV, insertKV, eraseKV, neg_neg]
  exact ⟨hd, by simp [hd, Finset.mem_insert, h12, h13]⟩

/-- C2 amended, witness at the concrete items `c2A`, `c2B`, `c2C`. -/
theorem c2_witness :
    ((500 : Int) ≠ 0 ∧ c2A.merchant = some "M" ∧ c2B.merchant = some "M"
      ∧ c2C.merchant = some "M" ∧ c2A.amount = 500 ∧ c2B.amount = 500
      ∧ c2C.amount = -500 ∧ truthyStr c2A.declineReason = false
      ∧ truthyStr c2B.declineReason = false ∧ truthyStr c2C.declineReason = false
      ∧ c2A.id ≠ c2B.id ∧ c2A.id ≠ c2C.id)
      ∧ ((processItems [c2A, c2B, c2C]).dupes = {c2B.id, c2C.id}
        ∧ c2A.id ∉ (processItems [c2A, c2B, c2C]).dupes) :=
  ⟨by decide,
   c2_amended c2A c2B c2C "M" 500 (by decide) (by decide) (by decide) (by decide)
     (by decide) (by decide) (by decide) (by decide) (by decide) (by decide)
     (by decide) (by decide)⟩

/-- Total of the values of a `defaultdict(int)`, i.e. the sum of
`d[month]` over all months that have an entry (absent months hold the
default `0`). -/
def sumVals (l : List (String × Int)) : Int := (l.map Prod.snd).sum

/-- Bumping one key adds exactly the bumped amount to the value total. -/
theorem sumVals_bump (k : String) (a : Int) (l : List (String × Int)) :
    sumVals (bump k a l) = sumVals l + a := by
  induction l with
  | nil => simp [bump, sumVals]
  | cons hd tl ih =>
      obtain ⟨k', v⟩ := hd
      by_cases h : k' = k
      · simp only [bump, if_pos h, sumVals, List.map_cons, List.sum_cons]
        omega
      · simp only [bump, if_neg h, sumVals, List.map_cons, List.sum_cons] at ih ⊢
        omega

/-- Eligibility test of the aggregation loop, the negation of the skip
condition `item["amount"] == 0 or item.get("decline_reason")`. -/
def eligibleItem (i : Item) : Bool :=
  decide ¬(i.amount = 0 ∨ truthyStr i.declineReason = true)

/-- A skipped item (`continue`) leaves the loop state unchanged. -/
theorem processItem_skip (st : LoopState) (i : Item)
    (h : i.amount = 0 ∨ truthyStr i.declineReason = true) :
    processItem st i = st := by
  rw [processItem, if_pos h]

/-- Effect of one eligible item on the `inbounds` defaultdict. -/
theorem processItem_inbounds (st : LoopState) (i : Item)
    (h : ¬(i.amount = 0 ∨ truthyStr i.declineReason = true)) :
    (processItem st i).inbounds =
      if 0 < i.amount then bump (dateFormatYM i.created) i.amount st.inbounds
      else st.inbounds := by
  rw [processItem, if_neg h]

/-- Effect of one eligible item on the `outbounds` defaultdict. -/
theorem processItem_outbounds (st : LoopState) (i : Item)
    (h : ¬(i.amount = 0 ∨ truthyStr i.declineReason = true)) :
    (processItem st i).outbounds =
      if 0 < i.amount then st.outbounds
      else bump (dateFormatYM i.created) i.amount st.outbounds := by
  rw [processItem, if_neg h]

/-- Running total of `inbounds` over the loop: it grows by exactly the
positive amounts of the eligible items. -/
theorem foldl_inbounds (items : List Item) (st : LoopState) :
    sumVals ((items.foldl processItem st).inbounds)
      = sumVals st.inbounds
        + ((items.filter fun i => eligibleItem i && decide (0 < i.amount)).map
            (·.amount)).sum := by
  induction items generalizing st with
  | nil => simp
  | cons i rest ih =>
      simp only [List.foldl_cons, List.filter_cons]
      by_cases he : i.amount = 0 ∨ truthyStr i.declineReason = true
      · have hb : (eligibleItem i && decide (0 < i.amount)) = false := by
          simp [eligibleItem]
          intro h1 h2
          exact absurd he (by simp [h1, h2])
        rw [processItem_skip st i he, hb]
        simpa using ih st
      · have hel : eligibleItem i = true := by
          simp only [eligibleItem, decide_eq_true_eq]
          exact he
        rw [ih (processItem st i), processItem_inbounds st i he]
        by_cases hp : 0 < i.amount
        · simp [hel, hp, sumVals_bump]
          omega
        · simp [hel, hp]

/-- Running total of `outbounds` over the loop: it grows by exactly the
negative amounts of the eligible items. -/
theorem foldl_outbounds (items : List Item) (st : LoopState) :
    sumVals ((items.foldl processItem st).outbounds)
      = sumVals st.outbounds
        + ((items.filter fun i => eligibleItem i && decide (i.amount < 0)).map
            (·.amount)).sum := by
  induction items generalizing st with
  | nil => simp
  | cons i rest ih =>
      simp only [List.foldl_cons, List.filter_cons]
      by_cases he : i.amount = 0 ∨ truthyStr i.declineReason = true
      · have hb : (eligibleItem i && decide (i.amount < 0)) = false := by
          simp [eligibleItem]
          intro h1 h2
          exact absurd he (by simp [h1, h2])
        rw [processItem_skip st i he, hb]
        simpa using ih st
      · have hel : eligibleItem i = true := by
          simp only [eligibleItem, decide_eq_true_eq]
          exact he
        have hz : i.amount ≠ 0 := fun h => he (Or.inl h)
        rw [ih (processItem st i), processItem_outbounds st i he]
        by_cases hp : 0 < i.amount
        · have hn : ¬(i.amount < 0) := by omega
          simp [hel, hn, hp]
        · have hn : i.amount < 0 := by omega
          simp [hel, hn, hp, sumVals_bump]
          omega

/-- Skipped items contribute to no aggregate: folding over a list equals
folding over its eligible sublist. -/
theorem foldl_eligible (items : List Item) (st : LoopState) :
    items.foldl processItem st = (items.filter eligibleItem).foldl processItem st := by
  induction items generalizing st with
  | nil => rfl
  | cons i rest ih =>
      by_cases he : i.amount = 0 ∨ truthyStr i.declineReason = true
      · have hb : eligibleItem i = false := by
          simp only [eligibleItem, decide_eq_false_iff_not, not_not]
          exact he
        simp only [List.foldl_cons, List.filter_cons, hb, Bool.false_eq_true, if_false]
        rw [processItem_skip st i he]
        exact ih st
      · have hel : eligibleItem i = true := by
          simp only [eligibleItem, decide_eq_true_eq]
          exact he
        simp only [List.foldl_cons, List.filter_cons, hel, if_true]
        exact ih (processItem st i)

/-- C6: the total of `inbound[month]` over all months equals the sum of
the positive amounts among items with nonzero amount and no (truthy)
decline reason; symmetrically the total of `outbound[month]` equals the
sum of the negative amounts among those items; and items failing the
eligibility test contribute to no aggregate at all — the entire loop
state equals the one computed from the eligible items alone. -/
theorem c6_aggregate_sums (items : List Item) :
    sumVals (processItems items).inbounds
        = ((items.filter fun i => eligibleItem i && decide (0 < i.amount)).map
            (·.amount)).sum
      ∧ sumVals (processItems items).outbounds
        = ((items.filter fun i => eligibleItem i && decide (i.amount < 0)).map
            (·.amount)).sum
      ∧ processItems items = processItems (items.filter eligibleItem) := by
  refine ⟨?_, ?_, ?_⟩
  · simpa [initState, sumVals] using foldl_inbounds items initState
  · simpa [initState, sumVals] using foldl_outbounds items initState
  · exact foldl_eligible items initState

/-- Account object: the `base` handler reads only `id` and `closed`. -/
structure Account where
  id : String
  closed : Bool
deriving DecidableEq, Repr

/-- Pot object, opaque here: the code never constructs one because the
pots endpoint is gone. -/
structure Pot where
  id : String
deriving DecidableEq, Repr

/-- Ledger: one per-user entry of the module-level `cache` dict,
`{"accounts": …, "pots": …, "items": …}`. -/
structure Ledger where
  accounts : List Account
  pots : List Pot
  items : List Item
deriving DecidableEq

/-- Upstream responses available to one execution of `base`: the current
accounts list, and for every `(account_id, since)` request the raw
transaction list the wire returns.  Balance responses are not modelled:
`base` only zips them into the view dict, never into the cache or the
aggregates. -/
structure Upstream where
  accounts : List Account
  tx : String → Option String → List Item

/-- Model of `MonzoAPI.pots`: `return []  # No longer available.` — the
upstream API is never contacted, whatever its state. -/
def MonzoAPI.pots (_up : Upstream) : List Pot := []

/-- Model of `MonzoAPI.transactions`: fetch the raw items for the account
and keep each item unless its `created` equals the `since` cursor
(`if not item["created"] == since`); when `since` is `None`, the Python
comparison is false for every string, so every item is kept. -/
def MonzoAPI.transactions (up : Upstream) (accountId : String)
    (since : Option String) : List Item :=
  (up.tx accountId since).filter fun i => decide ¬(some i.created = since)

/-- Cache-refresh core of the `base` handler (`app.py` lines 93–114),
restricted to the data that reaches the cache.  `none` models the request
failing before the `cache[user] = …` assignment: either
`next(account for account in accounts if not account["closed"])` finds no
open account, or `items[-1]` is evaluated on an empty cached item list.
With a cache entry present, accounts and pots are read from the cache and
only transactions are fetched, with the last cached `created` as cursor;
without one, accounts are fetched, pots come from `MonzoAPI.pots`, and
transactions are fetched without a cursor.  Either way the merged item
list is sorted by `created` and the new entry returned. -/
def base : Option Ledger → Upstream → Option Ledger
  | none, up =>
      if up.accounts.all (fun a => a.closed) then none
      else
        some ⟨up.accounts, MonzoAPI.pots up,
          sortByCreated ((up.accounts.map fun a =>
            MonzoAPI.transactions up a.id none).flatten)⟩
  | some c, up =>
      if c.accounts.all (fun a => a.closed) then none
      else
        match c.items.getLast? with
        | none => none
        | some last =>
            some ⟨c.accounts, c.pots,
              sortByCreated (c.items ++
                (c.accounts.map fun a =>
                  MonzoAPI.transactions up a.id (some last.created)).flatten)⟩

/-- Cache entry after one dashboard request: on success the new ledger is
stored; when the request dies before the cache assignment the previous
entry (or its absence) persists. -/
def nextCache (cache : Option Ledger) (up : Upstream) : Option Ledger :=
  match base cache up with
  | some l => some l
  | none => cache

/-- Cache entry after a sequence of dashboard requests. -/
def runRefreshes : Option Ledger → List Upstream → Option Ledger
  | c, [] => c
  | c, up :: rest => runRefreshes (nextCache c up) rest

/-- Raw items the upstream wire returns during one request, before the
client-side cursor filter; nothing is returned when the request dies
before the transactions are fetched. -/
def rawStep : Option Ledger → Upstream → List Item
  | none, up =>
      if up.accounts.all (fun a => a.closed) then []
      else (up.accounts.map fun a => up.tx a.id none).flatten
  | some c, up =>
      if c.accounts.all (fun a => a.closed) then []
      else
        match c.items.getLast? with
        | none => []
        | some last => (c.accounts.map fun a => up.tx a.id (some last.created)).flatten

/-- Items of one request that survive the cursor filter of
`MonzoAPI.transactions`. -/
def keptStep : Option Ledger → Upstream → List Item
  | none, up =>
      if up.accounts.all (fun a => a.closed) then []
      else (up.accounts.map fun a => MonzoAPI.transactions up a.id none).flatten
  | some c, up =>
      if c.accounts.all (fun a => a.closed) then []
      else
        match c.items.getLast? with
        | none => []
        | some last =>
            (c.accounts.map fun a => MonzoAPI.transactions up a.id (some last.created)).flatten

/-- All raw items upstream ever returned along a request sequence. -/
def runRaw : Option Ledger → List Upstream → List Item
  | _, [] => []
  | c, up :: rest => rawStep c up ++ runRaw (nextCache c up) rest

/-- All cursor-filtered items the client kept along a request sequence. -/
def runKept : Option Ledger → List Upstream → List Item
  | _, [] => []
  | c, up :: rest => keptStep c up ++ runKept (nextCache c up) rest

/-- Open account fixture for the concrete cache scenarios. -/
def accA : Account := ⟨"acc", false⟩

/-- Transaction fixture for the concrete cache scenarios. -/
def itmA : Item := ⟨"a", "2023-01-01T00:00:00Z", 100, none, none, "general", none, false⟩

/-- Cached ledger fixture holding `accA` and `itmA`. -/
def cacheA : Ledger := ⟨[accA], [], [itmA]⟩

/-- Upstream state whose current accounts differ from the cached ones. -/
def c3Up : Upstream := ⟨[⟨"acc2", false⟩], fun _ _ => []⟩

/-- C3, counterexample: with a cache entry present, the refresh returns
the cached accounts and pots unchanged — upstream now reports account
`acc2`, which is neither fetched nor reflected in the returned ledger. -/
theorem c3_counterexample :
    base (some cacheA) c3Up = some cacheA
      ∧ c3Up.accounts = [⟨"acc2", false⟩]
      ∧ cacheA.accounts ≠ c3Up.accounts := by decide

/-- C3 (amended): when a cache entry exists, a successful refresh serves
the accounts and pots from the cache; upstream is consulted only for the
incremental transaction fetch. -/
theorem c3_amended (c : Ledger) (up : Upstream) (l : Ledger)
    (h : base (some c) up = some l) :
    l.accounts = c.accounts ∧ l.pots = c.pots := by
  unfold base at h
  simp only at h
  split at h
  · exact absurd h (by simp)
  · split at h
    · exact absurd h (by simp)
    · injection h with h'
      subst h'
      exact ⟨rfl, rfl⟩

/-- C3 amended, witness at the concrete cache entry `cacheA` and upstream
`c3Up`. -/
theorem c3_witness :
    base (some cacheA) c3Up = some cacheA
      ∧ cacheA.accounts = cacheA.accounts ∧ cacheA.pots = cacheA.pots :=
  ⟨by decide, c3_amended cacheA c3Up cacheA (by decide)⟩

/-- Pots of any successfully refreshed ledger are empty provided the
previous entry's pots (if any) were. -/
theorem base_pots (c : Option Ledger) (up : Upstream) (l : Ledger)
    (hc : ∀ x, c = some x → x.pots = []) (h : base c up = some l) :
    l.pots = [] := by
  cases c with
  | none =>
      unfold base at h
      simp only at h
      split at h
      · exact absurd h (by simp)
      · injection h with h'
        subst h'
        rfl
  | some c0 =>
      unfold base at h
      simp only at h
      split at h
      · exact absurd h (by simp)
      · split at h
        · exact absurd h (by simp)
        · injection h with h'
          subst h'
          exact hc c0 rfl

/-- Pots-empty invariant along any request sequence. -/
theorem runRefreshes_pots (ups : List Upstream) (c : Option Ledger)
    (hc : ∀ x, c = some x → x.pots = []) (l : Ledger)
    (h : runRefreshes c ups = some l) : l.pots = [] := by
  induction ups generalizing c with
  | nil => exact hc l h
  | cons up rest ih =>
      refine ih (nextCache c up) ?_ h
      intro x hx
      unfold nextCache at hx
      cases hb : base c up with
      | some l' =>
          rw [hb] at hx
          injection hx with hx'
          subst hx'
          exact base_pots c up l' hc hb
      | none =>
          rw [hb] at hx
          exact hc x hx

/-- C4: the pots fetch returns the empty list for every upstream state,
and consequently the cached pots list of a user is empty after any
sequence of refreshes that starts with no cache entry. -/
theorem c4_pots_empty :
    (∀ up : Upstream, MonzoAPI.pots up = [])
      ∧ ∀ (ups : List Upstream) (l : Ledger),
          runRefreshes none ups = some l → l.pots = [] :=
  ⟨fun _ => rfl, fun ups l h => runRefreshes_pots ups none (by simp) l h⟩

/-- Upstream fixture that always returns the single item `itmA`. -/
def c4Up : Upstream := ⟨[accA], fun _ _ => [itmA]⟩

/-- C4, witness: one refresh from an empty cache with `c4Up` caches
`cacheA`, whose pots list is empty. -/
theorem c4_witness :
    runRefreshes none [c4Up] = some cacheA ∧ cacheA.pots = [] :=
  ⟨by decide, c4_pots_empty.2 [c4Up] cacheA (by decide)⟩

/-- C8: a refresh whose upstream responses contain only items timestamped
exactly at the cursor (nothing newer; the inclusive boundary re-returned
at most) appends nothing — cached item count and identifier set are
unchanged. -/
theorem c8_idempotent (c : Ledger) (up : Upstream) (last : Item)
    (hlast : c.items.getLast? = some last)
    (hopen : (c.accounts.all fun a => a.closed) = false)
    (hnonew : ∀ a ∈ c.accounts, ∀ i ∈ up.tx a.id (some last.created),
      i.created = last.created) :
    ∃ l, base (some c) up = some l
      ∧ l.items.length = c.items.length
      ∧ ∀ s, (s ∈ l.items.map Item.id ↔ s ∈ c.items.map Item.id) := by
  have hf : (c.accounts.map fun a =>
      MonzoAPI.transactions up a.id (some last.created)).flatten = [] := by
    rw [List.flatten_eq_nil_iff]
    intro lx hlx
    rw [List.mem_map] at hlx
    obtain ⟨a, ha, rfl⟩ := hlx
    rw [MonzoAPI.transactions, List.filter_eq_nil_iff]
    intro i hi
    simp [hnonew a ha i hi]
  have hperm : (sortByCreated c.items).Perm c.items := List.perm_insertionSort createdLe c.items
  refine ⟨⟨c.accounts, c.pots, sortByCreated c.items⟩, ?_, hperm.length_eq, ?_⟩
  · unfold base
    simp [hopen, hlast, hf]
  · intro s
    exact (hperm.map Item.id).mem_iff

/-- Upstream fixture re-returning exactly the boundary item `itmA`. -/
def c8Up : Upstream := ⟨[accA], fun _ _ => [itmA]⟩

/-- C8, witness at the concrete cache entry `cacheA` and upstream
`c8Up`. -/
theorem c8_witness :
    (cacheA.items.getLast? = some itmA
      ∧ (cacheA.accounts.all fun a => a.closed) = false
      ∧ ∀ a ∈ cacheA.accounts, ∀ i ∈ c8Up.tx a.id (some itmA.created),
          i.created = itmA.created)
      ∧ ∃ l, base (some cacheA) c8Up = some l
        ∧ l.items.length = cacheA.items.length
        ∧ ∀ s, (s ∈ l.items.map Item.id ↔ s ∈ cacheA.items.map Item.id) :=
  ⟨by decide, c8_idempotent cacheA c8Up itmA (by decide) (by decide) (by decide)⟩

/-- Reflexivity of the lexicographic character-list order. -/
theorem charsLe_refl (a : List Char) : charsLe a a = true := by
  induction a with
  | nil => rfl
  | cons x xs ih => simp [charsLe, ih]

/-- Totality of the lexicographic character-list order. -/
theorem charsLe_total (a b : List Char) : charsLe a b = true ∨ charsLe b a = true := by
  induction a generalizing b with
  | nil => left; rfl
  | cons x xs ih =>
      cases b with
      | nil => right; rfl
      | cons y ys =>
          by_cases hxy : x = y
          · subst hxy
            rcases ih ys with h | h
            · left; simpa [charsLe] using h
            · right; simpa [charsLe] using h
          · rcases lt_or_gt_of_ne hxy with h | h
            · left; simp [charsLe, hxy, h]
            · right
              have hyx : ¬y = x := fun e => hxy e.symm
              simp [charsLe, hyx, h]

/-- Antisymmetry of the lexicographic character-list order. -/
theorem charsLe_antisymm {a b : List Char} (h1 : charsLe a b = true)
    (h2 : charsLe b a = true) : a = b := by
  induction a generalizing b with
  | nil =>
      cases b with
      | nil => rfl
      | cons y ys => simp [charsLe] at h2
  | cons x xs ih =>
      cases b with
      | nil => simp [charsLe] at h1
      | cons y ys =>
          by_cases hxy : x = y
          · subst hxy
            simp only [charsLe, if_pos rfl] at h1 h2
            rw [ih h1 h2]
          · have hyx : ¬y = x := fun e => hxy e.symm
            simp [charsLe, hxy, hyx] at h1 h2
            exact absurd h2 (lt_asymm h1)

/-- Transitivity of the lexicographic character-list order. -/
theorem charsLe_trans {a b c : List Char} (h1 : charsLe a b = true)
    (h2 : charsLe b c = true) : charsLe a c = true := by
  induction a generalizing b c with
  | nil => rfl
  | cons x xs ih =>
      cases b with
      | nil => simp [charsLe] at h1
      | cons y ys =>
          cases c with
          | nil => simp [charsLe] at h2
          | cons z zs =>
              by_cases hxy : x = y
              · subst hxy
                by_cases hxz : x = z
                · subst hxz
                  simp only [charsLe, if_pos rfl] at h1 h2 ⊢
                  exact ih h1 h2
                · simp only [charsLe, if_pos rfl] at h1
                  simp only [charsLe, if_neg hxz] at h2 ⊢
                  exact h2
              · simp only [charsLe, if_neg hxy] at h1
                rw [decide_eq_true_eq] at h1
                by_cases hyz : y = z
                · subst hyz
                  simp only [charsLe, if_neg hxy, decide_eq_true_eq]
                  exact h1
                · simp only [charsLe, if_neg hyz] at h2
                  rw [decide_eq_true_eq] at h2
                  have hxz : x < z := lt_trans h1 h2
                  simp only [charsLe, if_neg (ne_of_lt hxz), decide_eq_true_eq]
                  exact hxz

/-- Python string `<=`, as a proposition on whole strings. -/
def strLe (s t : String) : Prop := charsLe s.data t.data = true

/-- Antisymmetry of the string order. -/
theorem strLe_antisymm {s t : String} (h1 : strLe s t) (h2 : strLe t s) : s = t := by
  have h := charsLe_antisymm h1 h2
  cases s
  cases t
  exact congrArg String.mk h

instance : IsTotal Item createdLe := ⟨fun i j => charsLe_total i.created.data j.created.data⟩

instance : IsTrans Item createdLe := ⟨fun _ _ _ => charsLe_trans⟩

/-- Sorting the item list by `created` yields a `createdLe`-sorted list. -/
theorem sortByCreated_sorted (l : List Item) : (sortByCreated l).Sorted createdLe :=
  List.sorted_insertionSort createdLe l

/-- Sorting is a permutation of the input. -/
theorem sortByCreated_perm (l : List Item) : (sortByCreated l).Perm l :=
  List.perm_insertionSort createdLe l

/-- Membership fact for `getLast?`. -/
theorem mem_of_getLast_eq {α : Type} : ∀ {l : List α} {m : α}, l.getLast? = some m → m ∈ l := by
  intro l
  induction l with
  | nil => intro m h; cases h
  | cons a rest ih =>
      intro m h
      cases rest with
      | nil =>
          simp only [List.getLast?_singleton, Option.some.injEq] at h
          simp [h]
      | cons b bs =>
          rw [List.getLast?_cons_cons] at h
          exact List.mem_cons_of_mem a (ih h)

/-- In a `createdLe`-sorted list, every element's `created` is at most the
last element's. -/
theorem sorted_le_getLast {l : List Item} (hs : l.Sorted createdLe) {m : Item}
    (hm : l.getLast? = some m) {x : Item} (hx : x ∈ l) :
    strLe x.created m.created := by
  induction l with
  | nil => cases hx
  | cons a rest ih =>
      cases rest with
      | nil =>
          simp only [List.getLast?_singleton, Option.some.injEq] at hm
          rw [List.mem_singleton] at hx
          subst hm
          subst hx
          exact charsLe_refl _
      | cons b bs =>
          rw [List.getLast?_cons_cons] at hm
          rw [List.sorted_cons] at hs
          rcases List.mem_cons.mp hx with rfl | hx'
          · exact hs.1 m (mem_of_getLast_eq hm)
          · exact ih hs.2 hm hx'

/-- Unpacking membership in the per-account filtered fetch: the item also
occurs in the raw responses and its timestamp differs from the cursor. -/
theorem mem_flatten_tx {accs : List Account} {up : Upstream} {s : Option String} {i : Item}
    (h : i ∈ (accs.map fun a => MonzoAPI.transactions up a.id s).flatten) :
    i ∈ (accs.map fun a => up.tx a.id s).flatten ∧ ¬(some i.created = s) := by
  rw [List.mem_flatten] at h
  obtain ⟨lx, hlx, hi⟩ := h
  rw [List.mem_map] at hlx
  obtain ⟨a, ha, rfl⟩ := hlx
  rw [MonzoAPI.transactions, List.mem_filter, decide_eq_true_eq] at hi
  refine ⟨?_, hi.2⟩
  rw [List.mem_flatten]
  exact ⟨up.tx a.id s, List.mem_map_of_mem _ ha, hi.1⟩

/-- Kept items of a step are among the raw items of that step. -/
theorem keptStep_subset {c : Option Ledger} {up : Upstream} {i : Item}
    (h : i ∈ keptStep c up) : i ∈ rawStep c up := by
  cases c with
  | none =>
      rw [keptStep] at h
      rw [rawStep]
      by_cases hg : (up.accounts.all fun a => a.closed) = true
      · rw [if_pos hg] at h; cases h
      · rw [if_neg hg] at h
        rw [if_neg hg]
        exact (mem_flatten_tx h).1
  | some c0 =>
      rw [keptStep] at h
      rw [rawStep]
      by_cases hg : (c0.accounts.all fun a => a.closed) = true
      · rw [if_pos hg] at h; cases h
      · rw [if_neg hg] at h
        rw [if_neg hg]
        cases hl : c0.items.getLast? with
        | none => rw [hl] at h; cases h
        | some last =>
            rw [hl] at h
            exact (mem_flatten_tx h).1

/-- Kept items of an incremental step are raw items whose timestamp
differs from the cursor. -/
theorem keptStep_incremental {c0 : Ledger} {up : Upstream} {last : Item} {k : Item}
    (hl : c0.items.getLast? = some last) (hk : k ∈ keptStep (some c0) up) :
    k ∈ rawStep (some c0) up ∧ k.created ≠ last.created := by
  rw [keptStep] at hk
  by_cases hg : (c0.accounts.all fun a => a.closed) = true
  · rw [if_pos hg] at hk; cases hk
  · rw [if_neg hg, hl] at hk
    have h := mem_flatten_tx hk
    refine ⟨?_, ?_⟩
    · rw [rawStep, if_neg hg, hl]
      exact h.1
    · intro he
      exact h.2 (by rw [he])

/-- When the request dies before the cache assignment, nothing is kept. -/
theorem keptStep_of_base_none {c : Option Ledger} {up : Upstream}
    (h : base c up = none) : keptStep c up = [] := by
  cases c with
  | none =>
      rw [base] at h
      rw [keptStep]
      by_cases hg : (up.accounts.all fun a => a.closed) = true
      · rw [if_pos hg]
      · rw [if_neg hg] at h; cases h
  | some c0 =>
      rw [base] at h
      rw [keptStep]
      by_cases hg : (c0.accounts.all fun a => a.closed) = true
      · rw [if_pos hg]
      · rw [if_neg hg] at h
        rw [if_neg hg]
        cases hl : c0.items.getLast? with
        | none => rfl
        | some last => rw [hl] at h; cases h

/-- Cached items of an optional ledger entry. -/
def cacheItems : Option Ledger → List Item
  | some c => c.items
  | none => []

/-- Items of a successful refresh are a permutation of the old cached
items followed by the newly kept ones. -/
theorem base_items_perm {c : Option Ledger} {up : Upstream} {l : Ledger}
    (h : base c up = some l) : l.items.Perm (cacheItems c ++ keptStep c up) := by
  cases c with
  | none =>
      rw [base] at h
      by_cases hg : (up.accounts.all fun a => a.closed) = true
      · rw [if_pos hg] at h; exact absurd h (by simp)
      · rw [if_neg hg] at h
        injection h with h'
        subst h'
        simp only [keptStep, cacheItems]
        rw [if_neg hg]
        simpa using sortByCreated_perm _
  | some c0 =>
      rw [base] at h
      by_cases hg : (c0.accounts.all fun a => a.closed) = true
      · rw [if_pos hg] at h; exact absurd h (by simp)
      · rw [if_neg hg] at h
        cases hl : c0.items.getLast? with
        | none => rw [hl] at h; exact absurd h (by simp)
        | some last =>
            rw [hl] at h
            injection h with h'
            subst h'
            simp only [keptStep, cacheItems]
            rw [if_neg hg, hl]
            exact sortByCreated_perm _

/-- Items of a successful refresh are sorted by `created`. -/
theorem base_items_sorted {c : Option Ledger} {up : Upstream} {l : Ledger}
    (h : base c up = some l) : l.items.Sorted createdLe := by
  cases c with
  | none =>
      rw [base] at h
      by_cases hg : (up.accounts.all fun a => a.closed) = true
      · rw [if_pos hg] at h; exact absurd h (by simp)
      · rw [if_neg hg] at h
        injection h with h'
        subst h'
        exact sortByCreated_sorted _
  | some c0 =>
      rw [base] at h
      by_cases hg : (c0.accounts.all fun a => a.closed) = true
      · rw [if_pos hg] at h; exact absurd h (by simp)
      · rw [if_neg hg] at h
        cases hl : c0.items.getLast? with
        | none => rw [hl] at h; exact absurd h (by simp)
        | some last =>
            rw [hl] at h
            injection h with h'
            subst h'
            exact sortByCreated_sorted _

/-- Cached items after any request sequence are a permutation of the
initial items followed by everything kept along the way. -/
theorem runRefreshes_items_perm (ups : List Upstream) (c : Option Ledger) (l : Ledger)
    (h : runRefreshes c ups = some l) :
    l.items.Perm (cacheItems c ++ runKept c ups) := by
  induction ups generalizing c with
  | nil =>
      rw [runRefreshes] at h
      cases c with
      | none => exact absurd h (by simp)
      | some c0 =>
          injection h with h'
          subst h'
          simp [cacheItems, runKept]
  | cons up rest ih =>
      rw [runRefreshes] at h
      have hnext := ih (nextCache c up) h
      have hstep : (cacheItems (nextCache c up)).Perm (cacheItems c ++ keptStep c up) := by
        unfold nextCache
        cases hb : base c up with
        | some l' => simpa [cacheItems] using base_items_perm hb
        | none =>
            rw [keptStep_of_base_none hb]
            simp
      refine hnext.trans ?_
      rw [runKept, ← List.append_assoc]
      exact hstep.append_right _

/-- Sortedness of the cached items is an invariant of request
sequences. -/
theorem runRefreshes_sorted (ups : List Upstream) (c : Option Ledger) (l : Ledger)
    (hc : ∀ x, c = some x → x.items.Sorted createdLe)
    (h : runRefreshes c ups = some l) : l.items.Sorted createdLe := by
  induction ups generalizing c with
  | nil => rw [runRefreshes] at h; exact hc l h
  | cons up rest ih =>
      rw [runRefreshes] at h
      refine ih (nextCache c up) ?_ h
      intro x hx
      unfold nextCache at hx
      cases hb : base c up with
      | some l' =>
          rw [hb] at hx
          injection hx with hx'
          subst hx'
          exact base_items_sorted hb
      | none => rw [hb] at hx; exact hc x hx

/-- Assumptions on one refresh's upstream responses needed for the
duplicate-identifier guarantee: the kept items of the step carry pairwise
distinct identifiers and, when the step performs an incremental fetch
(cache entry whose last item provides the cursor), upstream honours the
inclusive cursor contract — every raw response item is timestamped at or
after the cursor. -/
def GoodStep (c : Option Ledger) (up : Upstream) : Prop :=
  ((keptStep c up).map Item.id).Nodup ∧
    match c with
    | none => True
    | some cl =>
        match cl.items.getLast? with
        | none => True
        | some last => ∀ i ∈ rawStep (some cl) up, strLe last.created i.created

/-- GoodStep at every step of a request sequence. -/
def GoodRun : Option Ledger → List Upstream → Prop
  | _, [] => True
  | c, up :: rest => GoodStep c up ∧ GoodRun (nextCache c up) rest

/-- One successful refresh preserves distinctness of the cached
identifiers, given sortedness of the old entry, the step assumptions, and
consistency of timestamps per identifier between the old entry and the
step's raw items. -/
theorem base_items_nodup {c : Option Ledger} {up : Upstream} {l : Ledger}
    (hsorted : ∀ x, c = some x → x.items.Sorted createdLe)
    (hnodup : ∀ x, c = some x → (x.items.map Item.id).Nodup)
    (hgs : GoodStep c up)
    (hcons : ∀ i ∈ cacheItems c, ∀ j ∈ rawStep c up, i.id = j.id → i.created = j.created)
    (h : base c up = some l) :
    (l.items.map Item.id).Nodup := by
  have hperm := base_items_perm h
  rw [(hperm.map Item.id).nodup_iff, List.map_append, List.nodup_append]
  refine ⟨?_, hgs.1, ?_⟩
  · cases c with
    | none => simp [cacheItems]
    | some c0 => exact hnodup c0 rfl
  · intro s hsA hsB
    rw [List.mem_map] at hsA hsB
    obtain ⟨x, hx, hxs⟩ := hsA
    obtain ⟨k, hk, hks⟩ := hsB
    cases c with
    | none => simp [cacheItems] at hx
    | some c0 =>
        simp only [cacheItems] at hx
        cases hl : c0.items.getLast? with
        | none =>
            rw [keptStep] at hk
            by_cases hg : (c0.accounts.all fun a => a.closed) = true
            · rw [if_pos hg] at hk; cases hk
            · rw [if_neg hg, hl] at hk; cases hk
        | some last =>
            obtain ⟨hkraw, hkne⟩ := keptStep_incremental hl hk
            have hxle : strLe x.created last.created :=
              sorted_le_getLast (hsorted c0 rfl) hl hx
            have h2 := hgs.2
            simp only [hl] at h2
            have hlek : strLe last.created k.created := h2 k hkraw
            have hid : x.id = k.id := by rw [hxs, hks]
            have hcr : x.created = k.created := hcons x hx k hkraw hid
            have h1 : strLe k.created last.created := by rw [← hcr]; exact hxle
            exact hkne (strLe_antisymm h1 hlek)

/-- Distinctness of the cached identifiers is an invariant of request
sequences whose steps satisfy `GoodRun` and whose raw responses give each
identifier a single timestamp. -/
theorem runRefreshes_nodup (ups : List Upstream) (c : Option Ledger) (l : Ledger)
    (hsorted : ∀ x, c = some x → x.items.Sorted createdLe)
    (hnodup : ∀ x, c = some x → (x.items.map Item.id).Nodup)
    (hgood : GoodRun c ups)
    (hcons : ∀ i ∈ cacheItems c ++ runRaw c ups, ∀ j ∈ cacheItems c ++ runRaw c ups,
      i.id = j.id → i.created = j.created)
    (h : runRefreshes c ups = some l) :
    (l.items.map Item.id).Nodup := by
  induction ups generalizing c with
  | nil => rw [runRefreshes] at h; exact hnodup l h
  | cons up rest ih =>
      rw [runRefreshes] at h
      obtain ⟨hgs, hgr⟩ := hgood
      have hsub : ∀ y, y ∈ cacheItems (nextCache c up) ++ runRaw (nextCache c up) rest →
          y ∈ cacheItems c ++ runRaw c (up :: rest) := by
        intro y hy
        rw [List.mem_append] at hy
        rw [runRaw, List.mem_append, List.mem_append]
        rcases hy with hy | hy
        · unfold nextCache at hy
          cases hb : base c up with
          | none =>
              rw [hb] at hy
              exact Or.inl hy
          | some l' =>
              rw [hb] at hy
              simp only [cacheItems] at hy
              have hmem := (base_items_perm hb).mem_iff.mp hy
              rw [List.mem_append] at hmem
              rcases hmem with hmem | hmem
              · exact Or.inl hmem
              · exact Or.inr (Or.inl (keptStep_subset hmem))
        · exact Or.inr (Or.inr hy)
      have hconsStep : ∀ i ∈ cacheItems c, ∀ j ∈ rawStep c up,
          i.id = j.id → i.created = j.created := by
        intro i hi j hj hij
        refine hcons i ?_ j ?_ hij
        · rw [List.mem_append]; exact Or.inl hi
        · rw [List.mem_append, runRaw, List.mem_append]
          exact Or.inr (Or.inl hj)
      refine ih (nextCache c up) ?_ ?_ hgr ?_ h
      · intro x hx
        unfold nextCache at hx
        cases hb : base c up with
        | some l' =>
            rw [hb] at hx
            injection hx with hx'
            subst hx'
            exact base_items_sorted hb
        | none => rw [hb] at hx; exact hsorted x hx
      · intro x hx
        unfold nextCache at hx
        cases hb : base c up with
        | some l' =>
            rw [hb] at hx
            injection hx with hx'
            subst hx'
            exact base_items_nodup hsorted hnodup hgs hconsStep hb
        | none => rw [hb] at hx; exact hnodup x hx
      · intro i hi j hj hij
        exact hcons i (hsub i hi) j (hsub j hj) hij

/-- New opposite item sharing the boundary timestamp with `itmA`. -/
def c5ItemC : Item := ⟨"c", "2023-01-01T00:00:00Z", -100, none, none, "general", none, false⟩

/-- Upstream state of the first refresh: one item `itmA`. -/
def c5Up1 : Upstream := ⟨[accA], fun _ _ => [itmA]⟩

/-- Upstream state of the second refresh: `itmA` plus the new `c5ItemC`,
timestamped exactly at the inclusive cursor. -/
def c5Up2 : Upstream := ⟨[accA], fun _ _ => [itmA, c5ItemC]⟩

/-- C5, counterexample: across two refreshes upstream returned items with
identifiers `a`, then `a` and `c`, but the cursor filter drops the
boundary-timestamped `c`, so the cached identifier set `{a}` is a strict
subset of the identifiers ever returned by upstream — the claimed union
invariant fails when a new item shares the cursor timestamp. -/
theorem c5_counterexample :
    runRefreshes none [c5Up1, c5Up2] = some cacheA
      ∧ (runRaw none [c5Up1, c5Up2]).map Item.id = ["a", "a", "c"]
      ∧ "c" ∉ (cacheItems (runRefreshes none [c5Up1, c5Up2])).map Item.id := by decide

/-- C5 (amended): after any sequence of refreshes with no intervening
invalidate, the cached item list is a permutation of the items the client
*kept* (all items ever returned except those dropped by the cursor-equality
filter) and is sorted ascending by `created`; and it carries no duplicate
identifiers provided each step's kept identifiers are distinct, upstream
honours the inclusive cursor contract, and a given identifier always
arrives with a single timestamp. -/
theorem c5_amended (ups : List Upstream) (l : Ledger)
    (hrun : runRefreshes none ups = some l)
    (hgood : GoodRun none ups)
    (hcons : ∀ i ∈ runRaw none ups, ∀ j ∈ runRaw none ups,
      i.id = j.id → i.created = j.created) :
    l.items.Perm (runKept none ups)
      ∧ l.items.Sorted createdLe
      ∧ (l.items.map Item.id).Nodup := by
  refine ⟨?_, ?_, ?_⟩
  · simpa [cacheItems] using runRefreshes_items_perm ups none l hrun
  · exact runRefreshes_sorted ups none l (by simp) hrun
  · refine runRefreshes_nodup ups none l (by simp) (by simp) hgood ?_ hrun
    intro i hi j hj
    simp only [cacheItems, List.nil_append] at hi hj
    exact hcons i hi j hj

/-- C5 amended, witness: one refresh from an empty cache with `c5Up1`. -/
theorem c5_witness :
    (runRefreshes none [c5Up1] = some cacheA ∧ GoodRun none [c5Up1]
      ∧ ∀ i ∈ runRaw none [c5Up1], ∀ j ∈ runRaw none [c5Up1],
          i.id = j.id → i.created = j.created)
      ∧ (cacheA.items.Perm (runKept none [c5Up1])
        ∧ cacheA.items.Sorted createdLe
        ∧ (cacheA.items.map Item.id).Nodup) :=
  ⟨⟨by decide, ⟨⟨by decide, True.intro⟩, True.intro⟩, by decide⟩,
   c5_amended [c5Up1] cacheA (by decide) ⟨⟨by decide, True.intro⟩, True.intro⟩ (by decide)⟩

/-- C7: for every non-`None` cursor the transactions fetch is exactly the
filter dropping the cursor-timestamped items and nothing else — the result
is the raw response filtered on `created ≠ cursor`, and membership in the
result is raw membership together with the timestamp disequality. -/
theorem c7_cursor_filter (up : Upstream) (aid t : String) :
    MonzoAPI.transactions up aid (some t)
        = (up.tx aid (some t)).filter (fun i => decide (i.created ≠ t))
      ∧ ∀ i : Item, i ∈ MonzoAPI.transactions up aid (some t)
          ↔ (i ∈ up.tx aid (some t) ∧ i.created ≠ t) := by
  constructor
  · rw [MonzoAPI.transactions]
    apply List.filter_congr
    intro i _
    simp
  · intro i
    rw [MonzoAPI.transactions, List.mem_filter]
    simp

/-- Exception raised by `MonzoAPI.__call__`: either the dedicated
`MonzoAPI.NotAuthorisedError`, or the transport's `ClientResponseError`
carrying the HTTP status code, re-raised unmodified. -/
inductive ApiError where
  | notAuthorisedError : ApiError
  | clientResponseError (status : Nat) : ApiError
deriving DecidableEq, Repr

/-- Model of `MonzoAPI.__call__`'s error handling:
`resp.raise_for_status()` raises `ClientResponseError` exactly when the
HTTP status is at least 400; the `except` clause re-raises status 401 as
`MonzoAPI.NotAuthorisedError` and re-raises every other
`ClientResponseError` unchanged; on success the JSON body is returned. -/
def apiCall {α : Type} (status : Nat) (data : α) : Except ApiError α :=
  if 400 ≤ status then
    if status = 401 then Except.error ApiError.notAuthorisedError
    else Except.error (ApiError.clientResponseError status)
  else Except.ok data

/-- C10: a 401 upstream response raises the distinct
`NotAuthorisedError`; every other non-success (≥ 400) response re-raises
the original `ClientResponseError` with its status, which is a different
error from `NotAuthorisedError`; successful statuses return the body. -/
theorem c10_error_mapping :
    (∀ (α : Type) (d : α), apiCall 401 d = Except.error ApiError.notAuthorisedError)
      ∧ (∀ (α : Type) (d : α) (s : Nat), 400 ≤ s → s ≠ 401 →
          apiCall s d = Except.error (ApiError.clientResponseError s)
            ∧ ApiError.clientResponseError s ≠ ApiError.notAuthorisedError)
      ∧ (∀ (α : Type) (d : α) (s : Nat), s < 400 → apiCall s d = Except.ok d) := by
  refine ⟨fun α d => rfl, fun α d s h4 hne => ⟨?_, by simp⟩, fun α d s hlt => ?_⟩
  · rw [apiCall, if_pos h4, if_neg hne]
  · rw [apiCall, if_neg (by omega)]

/-- C10, witness at statuses 401, 500 and 200 with a `Nat` body. -/
theorem c10_witness :
    ((400 ≤ 500 ∧ (500 : Nat) ≠ 401) ∧ (200 : Nat) < 400)
      ∧ apiCall 401 (0 : Nat) = Except.error ApiError.notAuthorisedError
      ∧ (apiCall 500 (0 : Nat) = Except.error (ApiError.clientResponseError 500)
          ∧ ApiError.clientResponseError 500 ≠ ApiError.notAuthorisedError)
      ∧ apiCall 200 (0 : Nat) = Except.ok 0 :=
  ⟨⟨⟨by decide, by decide⟩, by decide⟩,
   c10_error_mapping.1 Nat 0,
   c10_error_mapping.2.1 Nat 0 500 (by decide) (by decide),
   c10_error_mapping.2.2 Nat 0 200 (by decide)⟩

/-- Round-to-nearest, ties-to-even quotient of `n / d` for positive
`d`. -/
def roundHalfEven (n d : Nat) : Nat :=
  let q := n / d
  let r := n % d
  if 2 * r > d ∨ (2 * r = d ∧ q % 2 = 1) then q + 1 else q

/-- Bounded search for the smallest `e` with `n / 2 ^ e < 2 ^ 53`. -/
def excessBitsAux : Nat → Nat → Nat → Nat
  | 0, _, e => e
  | fuel + 1, n, e => if n / 2 ^ e < 2 ^ 53 then e else excessBitsAux fuel n (e + 1)

/-- Number of significand-excess bits of `n`: its bit length minus 53
when `n ≥ 2 ^ 53`.  The search bound 1100 covers every float-representable
magnitude (`n < 2 ^ 1024`; Python raises `OverflowError` beyond, outside
the modelled range). -/
def excessBits (n : Nat) : Nat := excessBitsAux 1100 n 0

/-- Correctly rounded IEEE-754 binary64 value of a natural number:
round-to-nearest, ties-to-even at 53 significand bits. -/
def roundB64 (n : Nat) : Nat :=
  if n < 2 ^ 53 then n
  else roundHalfEven n (2 ^ excessBits n) * 2 ^ excessBits n

/-- Value of the Python float produced by true division when the exact
quotient is the integer `n`: the correctly rounded binary64 of `n`,
with rounding symmetric in sign. -/
def pyFloatIntVal (n : Int) : Int := n.sign * roundB64 n.natAbs

/-- Bounded search for the smallest `e` with `n / 10 ^ e < 10 ^ 28`. -/
def excessDigitsAux : Nat → Nat → Nat → Nat
  | 0, _, e => e
  | fuel + 1, n, e => if n / 10 ^ e < 10 ^ 28 then e else excessDigitsAux fuel n (e + 1)

/-- Number of decimal digits of `n` beyond the `decimal` context's 28
significant digits, for `n ≥ 10 ^ 28` (the search bound covers amounts
below `10 ^ 10028`). -/
def excessDigits (n : Nat) : Nat := excessDigitsAux 10000 n 0

/-- Rounding a natural number to the `decimal` context's 28 significant
decimal digits, ties-to-even. -/
def roundSigNat (n : Nat) : Nat :=
  if n < 10 ^ 28 then n
  else roundHalfEven n (10 ^ excessDigits n) * 10 ^ excessDigits n

/-- Sign-magnitude significant-digit rounding on integers (`Decimal`
rounds the magnitude). -/
def roundSig28 (n : Int) : Int := n.sign * roundSigNat n.natAbs

/-- Value of `Decimal(amount) / 100` under the default
28-significant-digit, round-half-even context: dividing by 100 only
shifts the decimal point, so the division is the significant-digit
rounding of `amount`, divided by 100 exactly. -/
def decimalDiv100 (amount : Int) : Rat := (roundSig28 amount : Rat) / 100

/-- Value denoted by the string `currency(amount, decimal)` returns: with
`decimal=False` and an amount divisible by 100 it is `str(amount / 100)` —
a binary64 float from Python true division; otherwise it is
`"{:.2f}".format(Decimal(amount) / 100)`, the decimal value rendered with
two fraction digits (rendering is exact: the quotient has at most two). -/
def currencyVal (amount : Int) (decimal : Bool) : Rat :=
  if amount % 100 = 0 ∧ decimal = false then (pyFloatIntVal (amount / 100) : Rat)
  else decimalDiv100 amount

/-- Rendering of `"{:.2f}".format(c / 100)` for an integral cent count
`c`: sign, integer part, dot, two-digit cents. -/
def renderCents (c : Int) : String :=
  (if c < 0 then "-" else "")
    ++ toString (c.natAbs / 100) ++ "."
    ++ (if c.natAbs % 100 < 10 then "0" else "") ++ toString (c.natAbs % 100)

/-- String returned by `currency(amount)` with the default
`decimal=True` flag, i.e. by the `Decimal` branch. -/
def currencyDecimalStr (amount : Int) : String := renderCents (roundSig28 amount)

/-- C9, counterexample: with the `decimal` flag false and amount
`(2^53 + 1) * 100`, the code returns `str(amount / 100)`, and float
division rounds the exact quotient `2^53 + 1` to the nearest
representable binary64 `2^53` — the returned value is not the exact
decimal value of the amount, so the conversion is not exact for every
input and flag value. -/
theorem c9_counterexample :
    currencyVal 900719925474099300 false ≠ (900719925474099300 : Rat) / 100 := by
  have hpf : pyFloatIntVal (900719925474099300 / 100) = 9007199254740992 := by decide
  have h1 : currencyVal 900719925474099300 false = ((9007199254740992 : Int) : Rat) := by
    rw [currencyVal, if_pos ⟨by decide, rfl⟩, hpf]
  rw [h1]
  norm_num

/-- C9 (amended): with the default `decimal=True` flag the conversion is
exact — for every amount within the `Decimal` context's 28 significant
digits the value is exactly `amount / 100` — and the four sample amounts
render as the exact strings; with `decimal=False` and a multiple of 100
the value passes through a binary64 float and can round, as the
counterexample shows. -/
theorem c9_amended (amount : Int) (h : amount.natAbs < 10 ^ 28) :
    currencyVal amount true = (amount : Rat) / 100
      ∧ currencyDecimalStr 0 = "0.00"
      ∧ currencyDecimalStr 1 = "0.01"
      ∧ currencyDecimalStr (-150) = "-1.50"
      ∧ currencyDecimalStr 123456 = "1234.56" := by
  refine ⟨?_, by decide, by decide, by decide, by decide⟩
  have hr : roundSig28 amount = amount := by
    rw [roundSig28, roundSigNat, if_pos h]
    exact Int.sign_mul_natAbs amount
  rw [currencyVal, if_neg (by simp), decimalDiv100, hr]

/-- C9 amended, witness at amount 123456. -/
theorem c9_witness :
    ((123456 : Int).natAbs < 10 ^ 28)
      ∧ (currencyVal 123456 true = (123456 : Rat) / 100
        ∧ currencyDecimalStr 0 = "0.00"
        ∧ currencyDecimalStr 1 = "0.01"
        ∧ currencyDecimalStr (-150) = "-1.50"
        ∧ currencyDecimalStr 123456 = "1234.56") :=
  ⟨by decide, c9_amended 123456 (by decide)⟩

end Mondash
